import Mathlib

/-!
Verification of the coinsnap-collector collection store and view derivation
logic (src/App.tsx, src/components/Dashboard.tsx, src/types.ts,
src/services/geminiService.ts).

Modelling conventions:
* JavaScript numbers are modelled as `Int` (timestamps, years, values).
* A runtime field that may be `undefined` is an `Option`.  In particular,
  although `types.ts` declares `value : number`, the object built by
  `handleCapture` spreads the identification result, which carries
  `estimatedValue` and no `value` field, so the model gives `CoinData` the
  fields `value : Option Int` and `estimatedValue : Option Int`, with `none`
  standing for `undefined`.  Likewise `condition` versus `conditionEstimate`.
* `dateAdded` is an ISO string in the source, compared through
  `new Date(x).getTime()`; the model stores the timestamp directly.
* JavaScript `Array.prototype.sort` (ES2019 and later) is a stable sort whose
  comparator result, when NaN, is treated as `+0`; it is modelled by a stable
  insertion sort `sortCmp`, and the `value` comparator maps a comparison
  involving an `undefined` value to `0`.
* Legacy records parsed from local storage are loosely typed (`any[]`); they
  are modelled by `RawCoin`, whose `value` is an optional `JsValue`
  (number or string), matching what `JSON.parse` can produce.
-/

/-- Runtime JSON value for the loosely typed legacy `value` field:
a number or a string. -/
inductive JsValue where
  | num (n : Int)
  | str (s : String)
deriving DecidableEq

/-- View state of the app, from `types.ts` (`ViewState`). -/
inductive ViewState where
  | dashboard
  | collection
  | add
  | details
deriving DecidableEq

/-- Which face of the coin the details view shows (`showImageSide`). -/
inductive ImageSide where
  | front
  | back
deriving DecidableEq

/-- Sort key selector, from `App.tsx` (`sortBy` state). -/
inductive SortBy where
  | date
  | value
  | year
  | name
deriving DecidableEq

/-- Sort direction, from `App.tsx` (`sortOrder` state). -/
inductive SortOrder where
  | asc
  | desc
deriving DecidableEq

/-- Coin record, from `types.ts` (`CoinData`), extended with the runtime-only
fields produced by the `handleCapture` spread (`estimatedValue`,
`conditionEstimate`); `value`, `condition` are optional because the object
built by `handleCapture` does not set them. -/
structure CoinData where
  id : String
  name : String
  year : Option Int
  country : String
  denomination : String
  value : Option Int
  estimatedValue : Option Int
  currency : String
  composition : String
  description : String
  condition : Option String
  conditionEstimate : Option String
  dateAdded : Int
  frontImageUrl : String
  backImageUrl : String
  isRare : Bool
  rarityDetails : String
  sources : List String
deriving DecidableEq

/-- Identification result, from `types.ts` (`CoinAnalysisResult`). -/
structure CoinAnalysisResult where
  name : String
  year : Option Int
  country : String
  denomination : String
  estimatedValue : Int
  composition : String
  description : String
  conditionEstimate : String
  isRare : Bool
  rarityDetails : String
  sources : List String
deriving DecidableEq

/-- Application state held by the `App` component (the `useState` hooks). -/
structure AppState where
  view : ViewState
  coins : List CoinData
  selectedCoin : Option CoinData
  searchTerm : String
  sortBy : SortBy
  sortOrder : SortOrder
  capturedImages : Option (String × String)
  isAnalyzing : Bool
  analysisError : Option String
  pendingCoin : Option CoinData
  showImageSide : ImageSide
deriving DecidableEq

/-- Character-list version of JavaScript `String.prototype.startsWith`
restricted to what the model needs: `isPrefL pat s` holds when `pat` begins
`s`. -/
def isPrefL : List Char → List Char → Bool
  | [], _ => true
  | _ :: _, [] => false
  | a :: as, b :: bs => a == b && isPrefL as bs

/-- Character-list substring test: `isInfixL pat s` holds when `pat` occurs
contiguously inside `s`. -/
def isInfixL : List Char → List Char → Bool
  | pat, [] => isPrefL pat []
  | pat, b :: bs => isPrefL pat (b :: bs) || isInfixL pat bs

/-- JavaScript `s.includes(sub)`. -/
def jsIncludes (s sub : String) : Bool :=
  isInfixL sub.toList s.toList

/-- JavaScript `s.toLowerCase()`, modelled character by character. -/
def jsToLower (s : String) : String :=
  String.mk (s.toList.map Char.toLower)

/-- Search predicate of `filteredCoins` in `App.tsx`:
`coin.name.toLowerCase().includes(q.toLowerCase()) ||
 coin.country.toLowerCase().includes(q.toLowerCase())`. -/
def coinMatches (q : String) (c : CoinData) : Bool :=
  jsIncludes (jsToLower c.name) (jsToLower q) || jsIncludes (jsToLower c.country) (jsToLower q)

/-- `filteredCoins` from `App.tsx` (lines 98-103). -/
def filteredCoins (q : String) (l : List CoinData) : List CoinData :=
  l.filter (coinMatches q)

/-- JavaScript `a.localeCompare(b)` modelled as sign of the string order. -/
def localeCompare (a b : String) : Int :=
  if a < b then -1 else if b < a then 1 else 0

/-- JavaScript subtraction `a.value - b.value` where either side may be
`undefined`: an `undefined` operand yields NaN, and `Array.prototype.sort`
treats a NaN comparator result as `+0`. -/
def jsNumSub : Option Int → Option Int → Int
  | some x, some y => x - y
  | _, _ => 0

/-- The `a.year || 0` key of the year sort: `null` (and a genuine year 0,
also falsy) becomes 0. -/
def yearKey (c : CoinData) : Int :=
  c.year.getD 0

/-- The `diff` computation of the `sortedCoins` comparator in `App.tsx`
(lines 105-123). -/
def coinDiff (sb : SortBy) (a b : CoinData) : Int :=
  match sb with
  | SortBy.value => jsNumSub a.value b.value
  | SortBy.year => yearKey a - yearKey b
  | SortBy.name => localeCompare a.name b.name
  | SortBy.date => a.dateAdded - b.dateAdded

/-- The full comparator of `sortedCoins`:
`return sortOrder === 'asc' ? diff : -diff`. -/
def coinCmp (sb : SortBy) (so : SortOrder) (a b : CoinData) : Int :=
  match so with
  | SortOrder.asc => coinDiff sb a b
  | SortOrder.desc => -(coinDiff sb a b)

/-- Stable insertion step: place `x` before the first element `y` with
`cmp x y ≤ 0`.  Since elements already in the list come earlier in the
original array, this realises the stability of `Array.prototype.sort`. -/
def insertCmp (cmp : α → α → Int) (x : α) : List α → List α
  | [] => [x]
  | y :: ys => if cmp x y ≤ 0 then x :: y :: ys else y :: insertCmp cmp x ys

/-- Stable sort by a JavaScript-style comparator, modelling
`Array.prototype.sort`. -/
def sortCmp (cmp : α → α → Int) : List α → List α
  | [] => []
  | x :: xs => insertCmp cmp x (sortCmp cmp xs)

/-- `sortedCoins` from `App.tsx` (lines 105-126), as a function of the sort
parameters and the (already filtered) list. -/
def sortedCoins (sb : SortBy) (so : SortOrder) (l : List CoinData) : List CoinData :=
  sortCmp (coinCmp sb so) l

/-- The reducer step of `mostValuableCoin` in `Dashboard.tsx` (line 18):
`(prev, current) => (prev.value > current.value) ? prev : current`.
A `>` comparison with an `undefined` side is false in JavaScript. -/
def jsGtV : Option Int → Option Int → Bool
  | some x, some y => decide (x > y)
  | _, _ => false

/-- One step of the `mostValuableCoin` reduce. -/
def mvStep (prev current : CoinData) : CoinData :=
  if jsGtV prev.value current.value then prev else current

/-- `mostValuableCoin` from `Dashboard.tsx` (lines 16-19): `null` on an empty
collection, otherwise `coins.reduce(mvStep)` (no initial accumulator). -/
def mostValuableCoin : List CoinData → Option CoinData
  | [] => none
  | c :: cs => some (cs.foldl mvStep c)

/-- The coin object built on a successful identification in `handleCapture`
(`App.tsx` lines 65-72): fixed fields first, then the spread `...result`,
which carries `estimatedValue` (not `value`) and `conditionEstimate`
(not `condition`), so those two canonical fields stay unset. -/
def mkPendingCoin (newId : String) (images : String × String) (now : Int)
    (r : CoinAnalysisResult) : CoinData :=
  { id := newId
    frontImageUrl := images.1
    backImageUrl := images.2
    dateAdded := now
    currency := "USD"
    name := r.name
    year := r.year
    country := r.country
    denomination := r.denomination
    value := none
    estimatedValue := some r.estimatedValue
    composition := r.composition
    description := r.description
    condition := none
    conditionEstimate := some r.conditionEstimate
    isRare := r.isRare
    rarityDetails := r.rarityDetails
    sources := r.sources }

/-- `handleCapture` from `App.tsx` (lines 58-79), as a state transition
parameterised by the single resolution of the `identifyCoin` promise
(`outcome`), the generated UUID and the current timestamp.  The captured
images are stored and the busy flag raised before the call; the `finally`
block clears the busy flag on both branches. -/
def handleCapture (images : String × String)
    (outcome : Except String CoinAnalysisResult)
    (newId : String) (now : Int) (s : AppState) : AppState :=
  let s1 : AppState :=
    { s with capturedImages := some images, isAnalyzing := true, analysisError := none }
  match outcome with
  | Except.ok r =>
      { s1 with
        pendingCoin := some (mkPendingCoin newId images now r)
        isAnalyzing := false }
  | Except.error _ =>
      { s1 with
        analysisError := some "Failed to identify coin. Please try again with a clearer photo."
        isAnalyzing := false }

/-- `handleSaveCoin` from `App.tsx` (lines 81-88): commit the pending entry
when `pendingCoin && pendingCoin.name` is truthy (non-empty name), inserting
at the head of the list and resetting the add-flow state. -/
def handleSaveCoin (s : AppState) : AppState :=
  match s.pendingCoin with
  | some p =>
      if p.name ≠ "" then
        { s with
          coins := p :: s.coins
          view := ViewState.collection
          pendingCoin := none
          capturedImages := none }
      else s
  | none => s

/-- `handleDeleteCoin` from `App.tsx` (lines 90-96), with the result of the
`confirm` dialog as a parameter.  On confirmation: drop every coin whose id
equals the target, clear the selection when its id matches, and leave the
details view. -/
def handleDeleteCoin (confirmed : Bool) (targetId : String) (s : AppState) : AppState :=
  if confirmed then
    { s with
      coins := s.coins.filter (fun c => c.id ≠ targetId)
      selectedCoin :=
        match s.selectedCoin with
        | some sel => if sel.id = targetId then none else some sel
        | none => none
      view := if s.view = ViewState.details then ViewState.collection else s.view }
  else s

/-- Loosely typed record as parsed from local storage (`JSON.parse` of the
persisted array, typed `any[]` in `App.tsx` line 30): every field may be
absent, and `value` may be a number or a string. -/
structure RawCoin where
  id : Option String
  name : Option String
  year : Option Int
  country : Option String
  value : Option JsValue
  dateAdded : Option String
  frontImageUrl : Option String
  backImageUrl : Option String
  imageUrl : Option String
  isRare : Option Bool
  rarityDetails : Option String
deriving DecidableEq

/-- JavaScript `a || b` on possibly-absent strings: an absent or empty
(falsy) left operand yields the right operand. -/
def jsOrS : Option String → Option String → Option String
  | some s, b => if s = "" then b else some s
  | none, b => b

/-- JavaScript truthiness of a possibly-absent boolean (`c.isRare || false`). -/
def jsTruthyB : Option Bool → Bool
  | some b => b
  | none => false

/-- The legacy-data migration map of the load effect in `App.tsx`
(lines 32-38): spread the parsed record, then override the two image fields
with their fallback chains and default `isRare` and `rarityDetails`.
All other fields — `value` included — pass through unchanged. -/
def migrateCoin (c : RawCoin) : RawCoin :=
  { c with
    frontImageUrl := jsOrS c.frontImageUrl c.imageUrl
    backImageUrl := jsOrS c.backImageUrl (jsOrS c.frontImageUrl c.imageUrl)
    isRare := some (jsTruthyB c.isRare)
    rarityDetails := jsOrS c.rarityDetails (some "") }

/-- A baseline coin record for concrete witnesses. -/
def demoCoin (i : String) (nm : String) (v : Option Int) (y : Option Int) : CoinData :=
  { id := i
    name := nm
    year := y
    country := "US"
    denomination := "1 cent"
    value := v
    estimatedValue := v
    currency := "USD"
    composition := "Copper"
    description := ""
    condition := none
    conditionEstimate := none
    dateAdded := 0
    frontImageUrl := "front.jpg"
    backImageUrl := "back.jpg"
    isRare := false
    rarityDetails := ""
    sources := [] }

/-- A baseline application state for concrete witnesses. -/
def demoState (coins : List CoinData) (pending : Option CoinData)
    (sel : Option CoinData) : AppState :=
  { view := ViewState.collection
    coins := coins
    selectedCoin := sel
    searchTerm := ""
    sortBy := SortBy.date
    sortOrder := SortOrder.desc
    capturedImages := some ("f.jpg", "b.jpg")
    isAnalyzing := false
    analysisError := none
    pendingCoin := pending
    showImageSide := ImageSide.front }

def savePending : CoinData := demoCoin "p1" "Lincoln Cent" (some 3) (some 1950)

def saveStateA : AppState :=
  demoState [demoCoin "c0" "Old Coin" (some 1) none] (some savePending) none

def saveStateB : AppState := demoState [] none none

def captureStateReady : AppState :=
  { demoState [demoCoin "c0" "Old Coin" (some 1) none] none none with
    view := ViewState.add
    capturedImages := none }

def legacyRaw : RawCoin :=
  { id := some "L1"
    name := some "Legacy Coin"
    year := some 1900
    country := some "US"
    value := some (JsValue.num 2)
    dateAdded := some "2020-01-01T00:00:00Z"
    frontImageUrl := none
    backImageUrl := none
    imageUrl := some "coin.jpg"
    isRare := none
    rarityDetails := none }

def stringValueRaw : RawCoin :=
  { legacyRaw with value := some (JsValue.str "ten dollars") }

def delCoinA : CoinData := demoCoin "a1" "Coin A" (some 5) (some 1990)

def delCoinB : CoinData := demoCoin "b2" "Coin B" (some 7) (some 1991)

def delState : AppState := demoState [delCoinA, delCoinB] none (some delCoinA)

/-- Numeric key of a defined `value`, used in proofs about the value sort. -/
def valueKey (c : CoinData) : Int :=
  c.value.getD 0

/-- Decides whether a coin has a known (non-null) positive year. -/
def knownPosYear (c : CoinData) : Bool :=
  match c.year with
  | some y => decide (0 < y)
  | none => false

/-- Decides whether a coin has a known (non-null) non-negative year. -/
def knownNonnegYear (c : CoinData) : Bool :=
  match c.year with
  | some y => decide (0 ≤ y)
  | none => false

/-- The property claim C7 asserts of the ascending year sort: no coin with a
known non-negative year appears anywhere before a coin with an unknown year. -/
def unknownsBeforeKnownNonneg (l : List CoinData) : Prop :=
  l.Pairwise (fun a b => ¬(knownNonnegYear a = true ∧ b.year = none))

def tieA : CoinData := demoCoin "a" "Tie A" (some 5) (some 1990)

def tieB : CoinData := demoCoin "b" "Tie B" (some 5) (some 1991)

def distinctV1 : CoinData := demoCoin "v1" "Small Coin" (some 1) none

def distinctV2 : CoinData := demoCoin "v2" "Middle Coin" (some 4) none

def distinctV3 : CoinData := demoCoin "v3" "Large Coin" (some 9) none

def yearK0 : CoinData := demoCoin "k0" "Year Zero Coin" (some 3) (some 0)

def yearUnk : CoinData := demoCoin "u0" "Unknown Year Coin" (some 4) none

def mvTieFirst : CoinData := demoCoin "m1" "Max First" (some 20) (some 1900)

def mvTieLast : CoinData := demoCoin "m2" "Max Last" (some 20) (some 1901)

def mvSmall : CoinData := demoCoin "m0" "Small One" (some 5) none

lemma isInfixL_nil (s : List Char) : isInfixL [] s = true := by
  cases s <;> simp [isInfixL, isPrefL]

lemma jsIncludes_empty_pat (s : String) : jsIncludes s "" = true := by
  have h : ("" : String).toList = [] := rfl
  simp [jsIncludes, h, isInfixL_nil]

lemma jsToLower_empty : jsToLower "" = "" := rfl

/-- Claim C8: for every collection and query, the filtered list is a
sublist of the collection, every retained coin matches the query
case-insensitively on name or country, and the empty query retains
everything. -/
theorem filteredCoins_spec (l : List CoinData) (q : String) :
    (filteredCoins q l).Sublist l
    ∧ (∀ c ∈ filteredCoins q l,
        jsIncludes (jsToLower c.name) (jsToLower q) = true
        ∨ jsIncludes (jsToLower c.country) (jsToLower q) = true)
    ∧ filteredCoins "" l = l := by
  refine ⟨List.filter_sublist l, ?_, ?_⟩
  · intro c hc
    have h := List.of_mem_filter hc
    simpa [coinMatches, Bool.or_eq_true] using h
  · refine List.filter_eq_self.mpr ?_
    intro c _
    simp [coinMatches, jsToLower_empty, jsIncludes_empty_pat]

/-- Claim C6: a pending entry is committed exactly when its name is
non-empty; on commit the coin is inserted at the head of the list and the
pending entry is consumed; with an empty name or no pending entry the state
is unchanged. -/
theorem handleSaveCoin_commit_iff (s : AppState) :
    (∀ p, s.pendingCoin = some p → p.name ≠ "" →
      (handleSaveCoin s).coins = p :: s.coins ∧ (handleSaveCoin s).pendingCoin = none)
    ∧ (∀ p, s.pendingCoin = some p → p.name = "" → handleSaveCoin s = s)
    ∧ (s.pendingCoin = none → handleSaveCoin s = s) := by
  refine ⟨?_, ?_, ?_⟩
  · intro p hp hn
    simp [handleSaveCoin, hp, hn]
  · intro p hp hn
    simp [handleSaveCoin, hp, hn]
  · intro hp
    simp [handleSaveCoin, hp]

theorem handleSaveCoin_commit_iff_witness :
    (handleSaveCoin saveStateA).coins = savePending :: saveStateA.coins
    ∧ handleSaveCoin saveStateB = saveStateB :=
  ⟨((handleSaveCoin_commit_iff saveStateA).1 savePending rfl (by decide)).1,
   (handleSaveCoin_commit_iff saveStateB).2.2 rfl⟩

/-- Claim C10: after a successful save the pending entry and captured images
are reset to `none`, saving again changes nothing, and the coin appears at
the head exactly once. -/
theorem handleSaveCoin_resets_and_idem (s : AppState) (p : CoinData)
    (hp : s.pendingCoin = some p) (hn : p.name ≠ "") :
    (handleSaveCoin s).pendingCoin = none
    ∧ (handleSaveCoin s).capturedImages = none
    ∧ handleSaveCoin (handleSaveCoin s) = handleSaveCoin s
    ∧ (handleSaveCoin (handleSaveCoin s)).coins = p :: s.coins := by
  have h1 : handleSaveCoin s =
      { s with
        coins := p :: s.coins
        view := ViewState.collection
        pendingCoin := none
        capturedImages := none } := by
    simp [handleSaveCoin, hp, hn]
  rw [h1]
  refine ⟨rfl, rfl, ?_, ?_⟩ <;> simp [handleSaveCoin]

theorem handleSaveCoin_resets_and_idem_witness :
    (handleSaveCoin saveStateA).pendingCoin = none
    ∧ (handleSaveCoin saveStateA).capturedImages = none
    ∧ handleSaveCoin (handleSaveCoin saveStateA) = handleSaveCoin saveStateA
    ∧ (handleSaveCoin (handleSaveCoin saveStateA)).coins = savePending :: saveStateA.coins :=
  handleSaveCoin_resets_and_idem saveStateA savePending rfl (by decide)

/-- Claim C4: when the identification call rejects, the coin list is
unchanged, no record is appended, the pending entry stays cleared with the
error message set, and the busy flag is lowered. -/
theorem handleCapture_error_preserves (s : AppState) (images : String × String)
    (e newId : String) (now : Int) (hp : s.pendingCoin = none) :
    (handleCapture images (Except.error e) newId now s).coins = s.coins
    ∧ (handleCapture images (Except.error e) newId now s).pendingCoin = none
    ∧ (handleCapture images (Except.error e) newId now s).analysisError
        = some "Failed to identify coin. Please try again with a clearer photo."
    ∧ (handleCapture images (Except.error e) newId now s).isAnalyzing = false := by
  simp [handleCapture, hp]

theorem handleCapture_error_preserves_witness :
    (handleCapture ("f.jpg", "b.jpg") (Except.error "network") "id-1" 0 captureStateReady).coins
      = captureStateReady.coins
    ∧ (handleCapture ("f.jpg", "b.jpg") (Except.error "network") "id-1" 0 captureStateReady).pendingCoin
      = none
    ∧ (handleCapture ("f.jpg", "b.jpg") (Except.error "network") "id-1" 0 captureStateReady).analysisError
      = some "Failed to identify coin. Please try again with a clearer photo."
    ∧ (handleCapture ("f.jpg", "b.jpg") (Except.error "network") "id-1" 0 captureStateReady).isAnalyzing
      = false :=
  handleCapture_error_preserves captureStateReady ("f.jpg", "b.jpg") "network" "id-1" 0 rfl

/-- Claim C9: a legacy record whose only (truthy) image field is `imageUrl`
is migrated with both the front and the back image field populated by that
value. -/
theorem migrateCoin_legacy_images (c : RawCoin) (v : String) (hv : v ≠ "")
    (hf : c.frontImageUrl = none ∨ c.frontImageUrl = some "")
    (hb : c.backImageUrl = none ∨ c.backImageUrl = some "")
    (hi : c.imageUrl = some v) :
    (migrateCoin c).frontImageUrl = some v ∧ (migrateCoin c).backImageUrl = some v := by
  have hfront : jsOrS c.frontImageUrl c.imageUrl = some v := by
    rcases hf with h | h <;> simp [jsOrS, h, hi]
  constructor
  · simpa [migrateCoin] using hfront
  · have hback : (migrateCoin c).backImageUrl = jsOrS c.backImageUrl (some v) := by
      show jsOrS c.backImageUrl (jsOrS c.frontImageUrl c.imageUrl)
        = jsOrS c.backImageUrl (some v)
      rw [hfront]
    rw [hback]
    rcases hb with h | h <;> simp [jsOrS, h]

theorem migrateCoin_legacy_images_witness :
    (migrateCoin legacyRaw).frontImageUrl = some "coin.jpg"
    ∧ (migrateCoin legacyRaw).backImageUrl = some "coin.jpg" :=
  migrateCoin_legacy_images legacyRaw "coin.jpg" (by decide) (Or.inl rfl) (Or.inl rfl) rfl

/-- Claim C3, counterexample: a persisted legacy record whose `value` is the
string `"ten dollars"` is loaded and migrated into the store with that string
still in its `value` field — the migration map never coerces `value`, so the
store holds a record whose value is a string, not a finite non-negative
number. -/
theorem migrateCoin_string_value_counterexample :
    (migrateCoin stringValueRaw).value = some (JsValue.str "ten dollars") := rfl

/-- Claim C3, amended: the load-time migration passes the persisted `value`
field through unchanged (only the two image fields, `isRare` and
`rarityDetails` are normalized), so the number-typed invariant is not
established for records loaded from persisted legacy data; the
string-to-number coercion exists only on the AI identification path. -/
theorem migrateCoin_value_passthrough (c : RawCoin) :
    (migrateCoin c).value = c.value := rfl

lemma filter_ne_id_length (l : List CoinData) (tid : String)
    (hnd : (l.map CoinData.id).Nodup) (hmem : ∃ c ∈ l, c.id = tid) :
    (l.filter (fun c => c.id ≠ tid)).length + 1 = l.length := by
  induction l with
  | nil =>
    rcases hmem with ⟨c, hc, _⟩
    cases hc
  | cons c cs ih =>
    rw [List.map_cons, List.nodup_cons] at hnd
    obtain ⟨hid, hnd2⟩ := hnd
    by_cases hc : c.id = tid
    · have hall : ∀ x ∈ cs, x.id ≠ tid := by
        intro x hx hxid
        apply hid
        rw [hc, ← hxid]
        exact List.mem_map_of_mem CoinData.id hx
      have hcs : cs.filter (fun x => x.id ≠ tid) = cs := by
        refine List.filter_eq_self.mpr ?_
        intro x hx
        simpa using hall x hx
      have hdrop : List.filter (fun x => decide (x.id ≠ tid)) (c :: cs) = cs := by
        rw [List.filter_cons, if_neg (by simp [hc]), hcs]
      rw [hdrop, List.length_cons]
    · have hmem2 : ∃ x ∈ cs, x.id = tid := by
        rcases hmem with ⟨x, hx, hxid⟩
        rcases List.mem_cons.mp hx with h | h
        · exact absurd (h ▸ hxid) hc
        · exact ⟨x, h, hxid⟩
      have := ih hnd2 hmem2
      simp only [List.filter_cons, List.length_cons]
      rw [if_pos (by simpa using hc)]
      simp only [List.length_cons]
      omega

/-- Claim C5: with unique ids (a store invariant), a confirmed delete keeps
the list order (sublist), removes exactly one record when the id is present,
keeps every record with a different id, is a no-op on the list for an absent
id, and clears a selection bearing the deleted id. -/
theorem handleDeleteCoin_spec (s : AppState) (tid : String)
    (hnd : (s.coins.map CoinData.id).Nodup) :
    ((handleDeleteCoin true tid s).coins).Sublist s.coins
    ∧ ((∃ c ∈ s.coins, c.id = tid) →
        (handleDeleteCoin true tid s).coins.length + 1 = s.coins.length)
    ∧ (∀ d ∈ s.coins, d.id ≠ tid → d ∈ (handleDeleteCoin true tid s).coins)
    ∧ ((∀ c ∈ s.coins, c.id ≠ tid) → (handleDeleteCoin true tid s).coins = s.coins)
    ∧ (∀ sel, s.selectedCoin = some sel → sel.id = tid →
        (handleDeleteCoin true tid s).selectedCoin = none) := by
  have hcoins : (handleDeleteCoin true tid s).coins = s.coins.filter (fun c => c.id ≠ tid) := by
    simp [handleDeleteCoin]
  refine ⟨?_, ?_, ?_, ?_, ?_⟩
  · rw [hcoins]
    exact List.filter_sublist _
  · intro hmem
    rw [hcoins]
    exact filter_ne_id_length s.coins tid hnd hmem
  · intro d hd hdid
    rw [hcoins]
    exact List.mem_filter.mpr ⟨hd, by simpa using hdid⟩
  · intro hall
    rw [hcoins]
    refine List.filter_eq_self.mpr ?_
    intro c hc
    simpa using hall c hc
  · intro sel hsel hid
    simp [handleDeleteCoin, hsel, hid]

theorem handleDeleteCoin_spec_witness :
    (handleDeleteCoin true "a1" delState).coins.length + 1 = delState.coins.length
    ∧ (handleDeleteCoin true "a1" delState).selectedCoin = none :=
  ⟨(handleDeleteCoin_spec delState "a1" (by decide)).2.1 ⟨delCoinA, by decide, rfl⟩,
   (handleDeleteCoin_spec delState "a1" (by decide)).2.2.2.2 delCoinA rfl rfl⟩

lemma insertCmp_perm (cmp : α → α → Int) (x : α) (l : List α) :
    List.Perm (insertCmp cmp x l) (x :: l) := by
  induction l with
  | nil => exact List.Perm.refl _
  | cons y ys ih =>
    by_cases h : cmp x y ≤ 0
    · simp only [insertCmp, if_pos h]
      exact List.Perm.refl _
    · simp only [insertCmp, if_neg h]
      exact (ih.cons y).trans (List.Perm.swap x y ys)

lemma sortCmp_perm (cmp : α → α → Int) (l : List α) : List.Perm (sortCmp cmp l) l := by
  induction l with
  | nil => exact List.Perm.refl _
  | cons x xs ih => exact (insertCmp_perm cmp x (sortCmp cmp xs)).trans (ih.cons x)

lemma mem_insertCmp {cmp : α → α → Int} {x : α} {l : List α} {a : α} :
    a ∈ insertCmp cmp x l ↔ a = x ∨ a ∈ l := by
  rw [(insertCmp_perm cmp x l).mem_iff, List.mem_cons]

lemma mem_sortCmp {cmp : α → α → Int} {l : List α} {a : α} :
    a ∈ sortCmp cmp l ↔ a ∈ l :=
  (sortCmp_perm cmp l).mem_iff

lemma insertCmp_congr (cmp1 cmp2 : α → α → Int) (x : α) (l : List α)
    (h : ∀ y ∈ l, cmp1 x y = cmp2 x y) : insertCmp cmp1 x l = insertCmp cmp2 x l := by
  induction l with
  | nil => rfl
  | cons y ys ih =>
    have hy := h y (List.mem_cons_self y ys)
    simp only [insertCmp, hy]
    by_cases hc : cmp2 x y ≤ 0
    · rw [if_pos hc, if_pos hc]
    · rw [if_neg hc, if_neg hc, ih (fun z hz => h z (List.mem_cons_of_mem y hz))]

lemma sortCmp_congr (cmp1 cmp2 : α → α → Int) (l : List α)
    (h : ∀ a ∈ l, ∀ b ∈ l, cmp1 a b = cmp2 a b) : sortCmp cmp1 l = sortCmp cmp2 l := by
  induction l with
  | nil => rfl
  | cons x xs ih =>
    have hxs : sortCmp cmp1 xs = sortCmp cmp2 xs :=
      ih (fun a ha b hb =>
        h a (List.mem_cons_of_mem x ha) b (List.mem_cons_of_mem x hb))
    simp only [sortCmp]
    rw [hxs]
    refine insertCmp_congr cmp1 cmp2 x _ ?_
    intro y hy
    exact h x (List.mem_cons_self x xs) y (List.mem_cons_of_mem x (mem_sortCmp.mp hy))

lemma pairwise_insertCmp_key (key : α → Int) (x : α) (l : List α)
    (hl : l.Pairwise (fun a b => key a ≤ key b)) :
    (insertCmp (fun a b => key a - key b) x l).Pairwise (fun a b => key a ≤ key b) := by
  induction l with
  | nil => simp [insertCmp]
  | cons y ys ih =>
    rw [List.pairwise_cons] at hl
    obtain ⟨hy, hys⟩ := hl
    by_cases hc : key x - key y ≤ 0
    · simp only [insertCmp, if_pos hc]
      refine List.pairwise_cons.mpr ⟨?_, List.pairwise_cons.mpr ⟨hy, hys⟩⟩
      intro z hz
      rcases List.mem_cons.mp hz with h | h
      · subst h; omega
      · have := hy z h; omega
    · simp only [insertCmp, if_neg hc]
      refine List.pairwise_cons.mpr ⟨?_, ih hys⟩
      intro z hz
      rcases mem_insertCmp.mp hz with h | h
      · subst h; omega
      · exact hy z h

lemma pairwise_sortKey (key : α → Int) (l : List α) :
    (sortCmp (fun a b => key a - key b) l).Pairwise (fun a b => key a ≤ key b) := by
  induction l with
  | nil => simp [sortCmp]
  | cons x xs ih =>
    simp only [sortCmp]
    exact pairwise_insertCmp_key key x _ ih

/-- Claim C7, amended: sorting by year ascending places every unknown-year
coin before every coin with a known, strictly positive year (a known year 0
shares the `a.year || 0` sort key 0 with unknown years, so it is not ordered
after them). -/
theorem sortedCoins_year_unknown_before_pos (l : List CoinData) :
    (sortedCoins SortBy.year SortOrder.asc l).Pairwise
      (fun a b => ¬(knownPosYear a = true ∧ b.year = none)) := by
  have heq : sortedCoins SortBy.year SortOrder.asc l
      = sortCmp (fun a b => yearKey a - yearKey b) l :=
    sortCmp_congr _ _ l (fun a _ b _ => rfl)
  rw [heq]
  refine (pairwise_sortKey yearKey l).imp ?_
  intro a b hab hcontra
  obtain ⟨hpos, hbn⟩ := hcontra
  cases hya : a.year with
  | none => simp [knownPosYear, hya] at hpos
  | some y =>
    simp only [knownPosYear, hya, decide_eq_true_eq] at hpos
    have h1 : yearKey a = y := by simp [yearKey, hya]
    have h2 : yearKey b = 0 := by simp [yearKey, hbn]
    omega

/-- Claim C7, counterexample: with a coin of known year 0 listed before an
unknown-year coin, the ascending year sort keeps that order (both keys are
0 and the sort is stable), so the unknown-year coin is not placed before the
known, non-negative (zero) year coin. -/
theorem sortedCoins_year_counterexample :
    ¬ unknownsBeforeKnownNonneg (sortedCoins SortBy.year SortOrder.asc [yearK0, yearUnk]) := by
  unfold unknownsBeforeKnownNonneg
  decide

/-- Claim C2, counterexample: two coins tie on value; the stable sort keeps
their original relative order under both directions, so reversing the
ascending result swaps the tied pair while the descending sort does not. -/
theorem sortedCoins_value_tie_counterexample :
    ¬((sortedCoins SortBy.value SortOrder.asc [tieA, tieB]).reverse
      = sortedCoins SortBy.value SortOrder.desc [tieA, tieB]) := by
  decide

/-- Claim C2, amended: the descending comparator is the pointwise negation of
the ascending comparator (not a separately defined order), and for every
collection whose values are defined and pairwise distinct, sorting by value
ascending and reversing yields exactly the descending sort; with tied values
the two differ, because the stable sort keeps the original relative order of
ties in both directions. -/
theorem sortedCoins_value_desc_eq_reverse_asc (l : List CoinData)
    (hsome : ∀ c ∈ l, c.value.isSome = true)
    (hdist : l.Pairwise (fun a b => a.value ≠ b.value)) :
    (sortedCoins SortBy.value SortOrder.asc l).reverse
      = sortedCoins SortBy.value SortOrder.desc l
    ∧ (∀ a b : CoinData, coinCmp SortBy.value SortOrder.desc a b
        = -(coinCmp SortBy.value SortOrder.asc a b)) := by
  refine ⟨?_, fun a b => rfl⟩
  have hA : sortedCoins SortBy.value SortOrder.asc l
      = sortCmp (fun a b => valueKey a - valueKey b) l := by
    refine sortCmp_congr _ _ l ?_
    intro a ha b hb
    obtain ⟨x, hx⟩ := Option.isSome_iff_exists.mp (hsome a ha)
    obtain ⟨y, hy⟩ := Option.isSome_iff_exists.mp (hsome b hb)
    simp [coinCmp, coinDiff, jsNumSub, valueKey, hx, hy]
  have hD : sortedCoins SortBy.value SortOrder.desc l
      = sortCmp (fun a b => (-(valueKey a)) - (-(valueKey b))) l := by
    refine sortCmp_congr _ _ l ?_
    intro a ha b hb
    obtain ⟨x, hx⟩ := Option.isSome_iff_exists.mp (hsome a ha)
    obtain ⟨y, hy⟩ := Option.isSome_iff_exists.mp (hsome b hb)
    simp only [coinCmp, coinDiff, jsNumSub, valueKey, hx, hy, Option.getD_some]
    omega
  rw [hA, hD]
  have hsym : ∀ {x y : CoinData}, x.value ≠ y.value → y.value ≠ x.value :=
    fun h => Ne.symm h
  have hpermS : List.Perm (sortCmp (fun a b => valueKey a - valueKey b) l) l :=
    sortCmp_perm _ l
  have hpermD : List.Perm
      (sortCmp (fun a b => (-(valueKey a)) - (-(valueKey b))) l) l :=
    sortCmp_perm _ l
  have hpermRev : List.Perm
      ((sortCmp (fun a b => valueKey a - valueKey b) l).reverse) l :=
    (List.reverse_perm _).trans hpermS
  have h1 : ((sortCmp (fun a b => valueKey a - valueKey b) l).reverse).Pairwise
      (fun a b => valueKey b ≤ valueKey a) :=
    List.pairwise_reverse.mpr (pairwise_sortKey valueKey l)
  have h2 : (sortCmp (fun a b => (-(valueKey a)) - (-(valueKey b))) l).Pairwise
      (fun a b => valueKey b ≤ valueKey a) :=
    (pairwise_sortKey (fun c => -(valueKey c)) l).imp (fun h => by omega)
  have hd1 : ((sortCmp (fun a b => valueKey a - valueKey b) l).reverse).Pairwise
      (fun a b => a.value ≠ b.value) :=
    (hpermRev.pairwise_iff hsym).mpr hdist
  have hd2 : (sortCmp (fun a b => (-(valueKey a)) - (-(valueKey b))) l).Pairwise
      (fun a b => a.value ≠ b.value) :=
    (hpermD.pairwise_iff hsym).mpr hdist
  have hs1 : ((sortCmp (fun a b => valueKey a - valueKey b) l).reverse).Pairwise
      (fun a b => valueKey b < valueKey a) := by
    refine (h1.and hd1).imp_of_mem ?_
    intro a b ha hb hab
    obtain ⟨hle, hne⟩ := hab
    obtain ⟨x, hx⟩ := Option.isSome_iff_exists.mp (hsome a (hpermRev.subset ha))
    obtain ⟨y, hy⟩ := Option.isSome_iff_exists.mp (hsome b (hpermRev.subset hb))
    have hxk : valueKey a = x := by simp [valueKey, hx]
    have hyk : valueKey b = y := by simp [valueKey, hy]
    have hne2 : x ≠ y := by
      rw [hx, hy] at hne
      simpa using hne
    omega
  have hs2 : (sortCmp (fun a b => (-(valueKey a)) - (-(valueKey b))) l).Pairwise
      (fun a b => valueKey b < valueKey a) := by
    refine (h2.and hd2).imp_of_mem ?_
    intro a b ha hb hab
    obtain ⟨hle, hne⟩ := hab
    obtain ⟨x, hx⟩ := Option.isSome_iff_exists.mp (hsome a (hpermD.subset ha))
    obtain ⟨y, hy⟩ := Option.isSome_iff_exists.mp (hsome b (hpermD.subset hb))
    have hxk : valueKey a = x := by simp [valueKey, hx]
    have hyk : valueKey b = y := by simp [valueKey, hy]
    have hne2 : x ≠ y := by
      rw [hx, hy] at hne
      simpa using hne
    omega
  haveI : IsAntisymm CoinData (fun a b => valueKey b < valueKey a) :=
    ⟨fun a b hab hba => absurd hab (by omega)⟩
  exact List.eq_of_perm_of_sorted (hpermRev.trans hpermD.symm) hs1 hs2

theorem sortedCoins_value_desc_eq_reverse_asc_witness :
    (sortedCoins SortBy.value SortOrder.asc [distinctV1, distinctV2, distinctV3]).reverse
      = sortedCoins SortBy.value SortOrder.desc [distinctV1, distinctV2, distinctV3] :=
  (sortedCoins_value_desc_eq_reverse_asc [distinctV1, distinctV2, distinctV3]
    (by decide) (by decide)).1

lemma mv_foldl_last_max (cs : List CoinData) :
    ∀ c : CoinData, c.value.isSome = true → (∀ x ∈ cs, x.value.isSome = true) →
    ∃ l1 l2, c :: cs = l1 ++ (cs.foldl mvStep c) :: l2
      ∧ (cs.foldl mvStep c).value.isSome = true
      ∧ (∀ x ∈ l1, valueKey x ≤ valueKey (cs.foldl mvStep c))
      ∧ (∀ x ∈ l2, valueKey x < valueKey (cs.foldl mvStep c)) := by
  induction cs with
  | nil =>
    intro c hc _
    exact ⟨[], [], rfl, hc, by simp, by simp⟩
  | cons d ds ih =>
    intro c hc hall
    have hd : d.value.isSome = true := hall d (List.mem_cons_self d ds)
    have hds : ∀ x ∈ ds, x.value.isSome = true :=
      fun x hx => hall x (List.mem_cons_of_mem d hx)
    obtain ⟨x, hx⟩ := Option.isSome_iff_exists.mp hc
    obtain ⟨y, hy⟩ := Option.isSome_iff_exists.mp hd
    have hxk : valueKey c = x := by simp [valueKey, hx]
    have hyk : valueKey d = y := by simp [valueKey, hy]
    rw [List.foldl_cons]
    by_cases hgt : valueKey d < valueKey c
    · have hxy : x > y := by omega
      have hstep : mvStep c d = c := by
        simp [mvStep, jsGtV, hx, hy, hxy]
      rw [hstep]
      obtain ⟨l1, l2, hdecomp, hsome2, hb1, hb2⟩ := ih c hc hds
      cases l1 with
      | nil =>
        simp only [List.nil_append] at hdecomp
        injection hdecomp with hcm hdsl
        refine ⟨[], d :: ds, ?_, hsome2, by simp, ?_⟩
        · simp only [List.nil_append]
          rw [← hcm]
        · intro z hz
          rcases List.mem_cons.mp hz with h | h
          · subst h
            rw [← hcm]
            exact hgt
          · exact hb2 z (hdsl ▸ h)
      | cons e t =>
        simp only [List.cons_append] at hdecomp
        injection hdecomp with hce hds2
        have hcm2 : valueKey c ≤ valueKey (ds.foldl mvStep c) := by
          have h := hb1 e (List.mem_cons_self e t)
          rw [← hce] at h
          exact h
        refine ⟨c :: d :: t, l2, ?_, hsome2, ?_, hb2⟩
        · simp only [List.cons_append]
          conv_lhs => rw [hds2]
        · intro z hz
          rcases List.mem_cons.mp hz with h | h
          · subst h
            exact hcm2
          · rcases List.mem_cons.mp h with h2 | h2
            · subst h2
              omega
            · exact hb1 z (List.mem_cons_of_mem e h2)
    · have hxy : ¬(x > y) := by omega
      have hstep : mvStep c d = d := by
        simp [mvStep, jsGtV, hx, hy, hxy]
      rw [hstep]
      obtain ⟨l1, l2, hdecomp, hsome2, hb1, hb2⟩ := ih d hd hds
      cases l1 with
      | nil =>
        simp only [List.nil_append] at hdecomp
        injection hdecomp with hdm hdsl
        refine ⟨[c], ds, ?_, hsome2, ?_, ?_⟩
        · simp only [List.cons_append, List.nil_append]
          rw [← hdm]
        · intro z hz
          have hz2 : z = c := by simpa using hz
          subst hz2
          rw [← hdm]
          omega
        · intro z hz
          exact hb2 z (hdsl ▸ hz)
      | cons e t =>
        simp only [List.cons_append] at hdecomp
        injection hdecomp with hde hds2
        have hdm2 : valueKey d ≤ valueKey (ds.foldl mvStep d) := by
          have h := hb1 e (List.mem_cons_self e t)
          rw [← hde] at h
          exact h
        refine ⟨c :: d :: t, l2, ?_, hsome2, ?_, hb2⟩
        · simp only [List.cons_append]
          conv_lhs => rw [hds2]
        · intro z hz
          rcases List.mem_cons.mp hz with h | h
          · subst h
            omega
          · rcases List.mem_cons.mp h with h2 | h2
            · subst h2
              exact hdm2
            · exact hb1 z (List.mem_cons_of_mem e h2)

/-- Claim C1, amended: on every non-empty collection with defined values,
`mostValuableCoin` returns a coin of maximal value, and when several coins
tie for the maximum it is the last such coin encountered in iteration order
(every coin after it is strictly smaller), not the first. -/
theorem mostValuableCoin_max_last (l : List CoinData) (hne : l ≠ [])
    (hv : ∀ c ∈ l, c.value.isSome = true) :
    ∃ m l1 l2, mostValuableCoin l = some m
      ∧ l = l1 ++ m :: l2
      ∧ (∀ c ∈ l, valueKey c ≤ valueKey m)
      ∧ (∀ x ∈ l2, valueKey x < valueKey m) := by
  cases l with
  | nil => exact absurd rfl hne
  | cons c cs =>
    obtain ⟨l1, l2, hdec, hsome2, hb1, hb2⟩ :=
      mv_foldl_last_max cs c (hv c (List.mem_cons_self c cs))
        (fun x hx => hv x (List.mem_cons_of_mem c hx))
    refine ⟨cs.foldl mvStep c, l1, l2, rfl, hdec, ?_, hb2⟩
    intro z hz
    rw [hdec] at hz
    rcases List.mem_append.mp hz with h | h
    · exact hb1 z h
    · rcases List.mem_cons.mp h with h2 | h2
      · subst h2
        exact le_refl _
      · have := hb2 z h2
        omega

/-- Claim C1, counterexample: two coins tie for the maximal value; the
reduce `(prev.value > current.value) ? prev : current` replaces the
accumulator on a tie, so it returns the second (last) tied coin, not the
first one encountered. -/
theorem mostValuableCoin_tie_counterexample :
    mostValuableCoin [mvTieFirst, mvTieLast] = some mvTieLast
    ∧ mvTieFirst.value = mvTieLast.value
    ∧ mvTieFirst ≠ mvTieLast := by
  refine ⟨by decide, rfl, by decide⟩

theorem mostValuableCoin_max_last_witness :
    ∃ m l1 l2, mostValuableCoin [mvSmall, mvTieFirst, mvTieLast] = some m
      ∧ [mvSmall, mvTieFirst, mvTieLast] = l1 ++ m :: l2
      ∧ (∀ c ∈ [mvSmall, mvTieFirst, mvTieLast], valueKey c ≤ valueKey m)
      ∧ (∀ x ∈ l2, valueKey x < valueKey m) :=
  mostValuableCoin_max_last [mvSmall, mvTieFirst, mvTieLast] (by decide) (by decide)
